import Mathlib

/-!
Verification development for the filesystem-analysis core of the
docker-cleanup repository (`src/filesystem.rs`).

The Rust code is shallowly embedded as follows.

* Paths are lists of characters (`Str`); Rust's `String`/`PathBuf` string
  operations (`starts_with`, `contains`, `ends_with`) become the
  corresponding operations on character lists.
* A filesystem is a flat list of entries, each carrying its path
  components relative to the scanned root, its kind (regular file or
  directory), optionally readable metadata (`entry.metadata()` can fail),
  and optionally readable content (opening/reading the file for hashing
  can fail).  Timestamps are seconds since the epoch as naturals.
* The external `walkdir` crate is modelled by its contract: a walk rooted
  at `root` with `filter_entry(keep)` and an optional `max_depth` yields
  exactly the entries within the depth bound all of whose ancestors
  (including the entry itself) satisfy `keep`.  Traversal order is
  irrelevant to every property proved here, so the model keeps the
  entry order of the filesystem list.
* The external `sha2` SHA-256 digest is modelled as an abstract function
  `digest` on file contents, passed as a parameter; the specification
  treats digest collisions as impossible, which appears below as an
  injectivity hypothesis where a proof needs it.
* Rust `u64` arithmetic wraps modulo `2 ^ 64` (release-profile
  semantics); multiplications and sums that the code performs on `u64`
  are reduced modulo `2 ^ 64`.  Reducing once at the end of a chain of
  additions/multiplications agrees with reducing at every step because
  `Nat.mod` is a homomorphism for `+` and `*`.
* Rust's stable `sort_by` is modelled by `List.insertionSort`, which is
  also a stable sort and hence extensionally equal to it.
* `HashMap` grouping via `entry(k).or_insert_with(Vec::new).push(v)` is
  modelled by `groupByKey`: one group per distinct key, each group
  holding the elements with that key in encounter order.  Rust's
  `HashMap` iteration order is unspecified; the model fixes the order of
  first key occurrence, which no property below depends on.
-/

abbrev Str := List Char

/-- Metadata of a regular file as returned by `entry.metadata()`:
`metadata.len()` always succeeds once metadata is available, while
`metadata.accessed()` and `metadata.modified()` can each fail. -/
structure FileMeta where
  size : Nat
  accessed : Option Nat
  modified : Option Nat
deriving DecidableEq

/-- Kind of a filesystem entry.  For a regular file, `meta = none` models
an `entry.metadata()` failure and `content = none` models a read failure
when the file is opened for hashing. -/
inductive EntryKind where
  | file (meta : Option FileMeta) (content : Option (List Nat)) : EntryKind
  | dir : EntryKind
deriving DecidableEq

/-- One filesystem object, identified by its path components relative to
the scanned root (the root itself has `comps = []`). -/
structure FSEntry where
  comps : List Str
  kind : EntryKind
deriving DecidableEq

abbrev FileSystem := List FSEntry

/-- Embedding of `FileInfo` from `src/filesystem.rs`. -/
structure FileInfo where
  path : Str
  size : Nat
  last_accessed : Nat
  last_modified : Nat
deriving DecidableEq

instance : Inhabited FileInfo := ⟨⟨[], 0, 0, 0⟩⟩

/-- Embedding of `CacheInfo` from `src/filesystem.rs`. -/
structure CacheInfo where
  path : Str
  cache_type : Str
  size : Nat
deriving DecidableEq

/-- Embedding of `AnalysisConfig` from `src/filesystem.rs`. -/
structure AnalysisConfig where
  min_file_size_mb : Nat
  old_file_days : Nat
  max_large_files : Nat
deriving DecidableEq

/-- Embedding of `DiskAnalysis` from `src/filesystem.rs`. -/
structure DiskAnalysis where
  large_files : List FileInfo
  duplicate_groups : List (List FileInfo)
  old_files : List FileInfo
  cache_dirs : List CacheInfo
  total_reclaimable : Nat
deriving DecidableEq

/-- Wrap-around modulus of Rust `u64` arithmetic. -/
def u64Mod : Nat := 2 ^ 64

/-- Model of Rust `str::contains` with a string pattern: the pattern
occurs as a contiguous substring of the haystack. -/
def strContainsSub (haystack pat : Str) : Bool :=
  haystack.tails.any (fun t => pat.isPrefixOf t)

/-- The `excluded_dirs` table of `should_exclude_path`. -/
def excluded_dirs : List Str :=
  ["/proc".toList, "/sys".toList, "/dev".toList, "/run".toList, "/boot".toList,
   "System Volume Information".toList, "Windows".toList, "Program Files".toList,
   "AppData/Local/Temp".toList, "$Recycle.Bin".toList]

/-- Embedding of `should_exclude_path`: a path is excluded when its string
form starts with one of the markers or contains `"/" ++ marker ++ "/"` as
a substring. -/
def should_exclude_path (p : Str) : Bool :=
  excluded_dirs.any (fun ex => ex.isPrefixOf p || strContainsSub p ('/' :: ex ++ ['/']))

/-- The pruning predicate passed to `filter_entry` in every scanner:
keep an entry when `should_exclude_path` rejects it. -/
def keepEntry (p : Str) : Bool := !should_exclude_path p

/-- Path string of an entry: the root string followed by each component,
separated by `/` (how `walkdir` forms `entry.path()`). -/
def pathOf (root : Str) (comps : List Str) : Str :=
  comps.foldl (fun acc c => acc ++ '/' :: c) root

/-- True when `keep` accepts the paths of every ancestor of the entry,
the root and the entry itself included: `filter_entry` prunes a whole
subtree when it rejects a directory, so an entry is yielded exactly when
the whole chain passes. -/
def prefixesOk (keep : Str → Bool) : Str → List Str → Bool
  | path, [] => keep path
  | path, c :: rest => keep path && prefixesOk keep (path ++ '/' :: c) rest

/-- Depth bound of a walk: `none` is unbounded, `some d` keeps entries at
depth at most `d` (the root has depth 0). -/
def withinDepth : Option Nat → Nat → Bool
  | none, _ => true
  | some d, n => n ≤ d

/-- Model of the `walkdir` crate: the entries of `fs` that lie within the
depth bound and whose full ancestor chain passes `keep`, paired with
their path strings. -/
def walk (keep : Str → Bool) (md : Option Nat) (root : Str) (fs : FileSystem) :
    List (Str × FSEntry) :=
  (fs.filter (fun e => prefixesOk keep root e.comps && withinDepth md e.comps.length)).map
    (fun e => (pathOf root e.comps, e))

/-- Stable descending sort by a size projection, modelling
`vec.sort_by(|a, b| b.size.cmp(&a.size))`. -/
def sortBySizeDesc (size : α → Nat) (l : List α) : List α :=
  l.insertionSort (fun a b => size b ≤ size a)

/-- Embedding of `find_large_files`: walk with pruning, keep regular
files with readable metadata whose size reaches the threshold and whose
two timestamps are both readable, sort descending by size. -/
def find_large_files (fs : FileSystem) (root : Str) (min_size_mb : Nat) : List FileInfo :=
  let min_size_bytes := min_size_mb * 1024 * 1024 % u64Mod
  let files := (walk keepEntry none root fs).filterMap (fun pe =>
    match pe.2.kind with
    | .file (some m) _ =>
      if min_size_bytes ≤ m.size then
        match m.accessed, m.modified with
        | some acc, some mo => some ⟨pe.1, m.size, acc, mo⟩
        | _, _ => none
      else none
    | _ => none)
  sortBySizeDesc FileInfo.size files

/-- A file collected by the first (size) pass of `find_duplicates`,
keeping the content alongside the `FileInfo` so that the second pass can
hash it. -/
structure SizedFile where
  info : FileInfo
  content : Option (List Nat)
deriving DecidableEq

/-- First pass of `find_duplicates`: walk with pruning, keep regular
files with readable metadata, size strictly above 1024 bytes and both
timestamps readable. -/
def collect_dup_candidates (fs : FileSystem) (root : Str) : List SizedFile :=
  (walk keepEntry none root fs).filterMap (fun pe =>
    match pe.2.kind with
    | .file (some m) c =>
      if 1024 < m.size then
        match m.accessed, m.modified with
        | some acc, some mo => some ⟨⟨pe.1, m.size, acc, mo⟩, c⟩
        | _, _ => none
      else none
    | _ => none)

/-- Model of grouping through a `HashMap`: one group per distinct key (in
order of first occurrence), each group listing the elements with that key
in encounter order. -/
def groupByKey [DecidableEq κ] (key : α → κ) (l : List α) : List (κ × List α) :=
  (l.map key).dedup.map (fun k => (k, l.filter (fun x => decide (key x = k))))

/-- Embedding of `hash_file` with the SHA-256 digest abstracted: hashing
succeeds exactly when the content is readable. -/
def hash_file (digest : List Nat → List Nat) (content : Option (List Nat)) :
    Option (List Nat) :=
  content.map digest

/-- The `size_groups` map of `find_duplicates`: collected files grouped
by exact byte size. -/
def dup_size_groups (fs : FileSystem) (root : Str) : List (Nat × List SizedFile) :=
  groupByKey (fun sf : SizedFile => sf.info.size) (collect_dup_candidates fs root)

/-- The files the second pass of `find_duplicates` hashes: the members of
every size group with at least two members, in group order. -/
def dup_to_hash (fs : FileSystem) (root : Str) : List SizedFile :=
  ((dup_size_groups fs root).filter (fun g => decide (1 < g.2.length))).flatMap (·.2)

/-- The successfully hashed files of the second pass, as (digest, file)
pairs; a file whose `hash_file` fails is dropped. -/
def dup_hashed (digest : List Nat → List Nat) (fs : FileSystem) (root : Str) :
    List (List Nat × FileInfo) :=
  (dup_to_hash fs root).filterMap
    (fun sf => (hash_file digest sf.content).map (fun h => (h, sf.info)))

/-- Embedding of `find_duplicates`: group collected files by exact size,
hash the files of every size group with at least two members (dropping
files whose hashing fails), group the hashed files by digest, and return
the digest groups with at least two members. -/
def find_duplicates (digest : List Nat → List Nat) (fs : FileSystem) (root : Str) :
    List (List FileInfo) :=
  let hash_groups := groupByKey (fun hp : List Nat × FileInfo => hp.1)
    (dup_hashed digest fs root)
  (hash_groups.filter (fun g => decide (1 < g.2.length))).map (fun g => g.2.map (·.2))

/-- Embedding of `find_old_files`.  `now` is the single `SystemTime::now()`
captured before the walk starts; `now.duration_since(accessed)` succeeds
exactly when `accessed ≤ now`.  A file is kept when its access time is
readable, not in the future, at least `days * 24 * 60 * 60` seconds old
(`u64` product), and its modified time is also readable. -/
def find_old_files (fs : FileSystem) (root : Str) (days : Nat) (now : Nat) :
    List FileInfo :=
  let threshold := days * 24 * 60 * 60 % u64Mod
  (walk keepEntry none root fs).filterMap (fun pe =>
    match pe.2.kind with
    | .file (some m) _ =>
      match m.accessed with
      | some acc =>
        if acc ≤ now then
          if threshold ≤ now - acc then
            match m.modified with
            | some mo => some ⟨pe.1, m.size, acc, mo⟩
            | none => none
          else none
        else none
      | none => none
    | _ => none)

/-- Embedding of `calculate_dir_size`: an unfiltered, unbounded walk of
the subtree rooted at the directory with components `dcomps`, summing the
sizes of the regular files with readable metadata (`u64` sum). -/
def calculate_dir_size (fs : FileSystem) (dcomps : List Str) : Nat :=
  ((fs.filterMap (fun e =>
    if dcomps.isPrefixOf e.comps then
      match e.kind with
      | .file (some m) _ => some m.size
      | _ => none
    else none)).sum) % u64Mod

/-- The `cache_patterns` table of `find_cache_directories`. -/
def cache_patterns : List (Str × Str) :=
  [("node_modules".toList, "npm/yarn".toList),
   ("target".toList, "Rust/Cargo".toList),
   (".cache".toList, "System cache".toList),
   ("__pycache__".toList, "Python".toList),
   (".npm".toList, "npm cache".toList),
   (".cargo/registry".toList, "Cargo registry".toList),
   (".pip".toList, "pip cache".toList),
   ("dist".toList, "Build output".toList),
   ("build".toList, "Build output".toList),
   (".gradle".toList, "Gradle cache".toList),
   (".m2/repository".toList, "Maven cache".toList)]

/-- One step of the `find_cache_directories` loop body for a walked
entry: for a directory, try every pattern in order; on a suffix match of
a path not yet seen, compute the recursive size and record the directory
when that size is positive, marking the path as seen. -/
def cacheStep (fs : FileSystem) (acc : List CacheInfo × List Str) (pe : Str × FSEntry) :
    List CacheInfo × List Str :=
  match pe.2.kind with
  | .dir =>
    cache_patterns.foldl (fun acc pl =>
      if pl.1.isSuffixOf pe.1 && !acc.2.contains pe.1 then
        let size := calculate_dir_size fs pe.2.comps
        if 0 < size then
          (acc.1 ++ [⟨pe.1, pl.2, size⟩], acc.2 ++ [pe.1])
        else acc
      else acc) acc
  | _ => acc

/-- Embedding of `find_cache_directories`: depth-6 pruned walk, suffix
matching against `cache_patterns` with a seen-path set, result sorted
descending by size. -/
def find_cache_directories (fs : FileSystem) (root : Str) : List CacheInfo :=
  sortBySizeDesc CacheInfo.size
    ((walk keepEntry (some 6) root fs).foldl (cacheStep fs) ([], [])).1

/-- Embedding of `analyze_disk`: run the four scanners and total the
reclaimable estimate (`u64` arithmetic).  `now` is the time captured by
`find_old_files`; `digest` is the abstract SHA-256. -/
def analyze_disk (digest : List Nat → List Nat) (fs : FileSystem) (root : Str)
    (now : Nat) (config : AnalysisConfig) : DiskAnalysis :=
  let large_files := find_large_files fs root config.min_file_size_mb
  let duplicate_groups := find_duplicates digest fs root
  let old_files := find_old_files fs root config.old_file_days now
  let cache_dirs := find_cache_directories fs root
  let duplicate_reclaimable := (duplicate_groups.map (fun g =>
    if 1 < g.length then g.headI.size * (g.length - 1) else 0)).sum
  let cache_reclaimable := (cache_dirs.map CacheInfo.size).sum
  let old_files_reclaimable := (old_files.map FileInfo.size).sum
  let total_reclaimable :=
    (duplicate_reclaimable + cache_reclaimable + old_files_reclaimable) % u64Mod
  ⟨large_files, duplicate_groups, old_files, cache_dirs, total_reclaimable⟩

/-- Segment-bounded occurrence of a pattern in a path, following the
specification's wording for the path filter: the pattern occurs
surrounded by path separators, where the start and the end of the string
also count as boundaries. -/
def occursSegBounded (pat p : Str) : Bool :=
  (List.range (p.length + 1)).any (fun i =>
    pat.isPrefixOf (p.drop i) &&
    (decide (p.take i = ([] : Str)) || decide ((p.take i).getLast? = some '/')) &&
    (decide (p.drop (i + pat.length) = ([] : Str)) ||
      decide ((p.drop (i + pat.length)).head? = some '/')))

/-- A filesystem entry is size-consistent when a readable metadata size
agrees with the length of readable content.  The scanners assume the tree
does not change during a scan, under which this always holds. -/
def entrySizeOk (e : FSEntry) : Bool :=
  match e.kind with
  | .file (some m) (some c) => decide (m.size = c.length)
  | _ => true

/-- Size-consistency of a whole filesystem. -/
def WFSizes (fs : FileSystem) : Bool := fs.all entrySizeOk

/-- The entry is the only one of the filesystem with its path string, as
is always the case on a real filesystem. -/
def UniquePathAt (fs : FileSystem) (root : Str) (e : FSEntry) : Prop :=
  ∀ e2 ∈ fs, pathOf root e2.comps = pathOf root e.comps → e2 = e

instance (fs : FileSystem) (root : Str) (e : FSEntry) : Decidable (UniquePathAt fs root e) :=
  List.decidableBAll _ fs

/-- Root path string used by the concrete example trees. -/
def rootR : Str := "r".toList

/-- Concrete tree with a 50MB file inside a `.git` subdirectory. -/
def gitFS : FileSystem :=
  [⟨[".git".toList], .dir⟩,
   ⟨[".git".toList, "big.bin".toList], .file (some ⟨52428800, some 0, some 0⟩) none⟩]

/-- Concrete tree with a single 10-byte file. -/
def smallFS : FileSystem :=
  [⟨["f.bin".toList], .file (some ⟨10, some 5, some 5⟩) none⟩]

/-- Concrete tree with one duplicate pair (two 1025-byte files with equal
content), used to witness the duplicate-scanner properties. -/
def dupFS : FileSystem :=
  [⟨["a.txt".toList], .file (some ⟨1025, some 0, some 0⟩) (some (List.replicate 1025 7))⟩,
   ⟨["b.bin".toList], .file (some ⟨1025, some 0, some 0⟩) (some (List.replicate 1025 7))⟩]

/-- Concrete tree with two 1025-byte files of which the second is
unreadable during hashing (the readable file is encountered first). -/
def unreadableFS : FileSystem :=
  [⟨["v.bin".toList], .file (some ⟨1025, some 0, some 0⟩) (some (List.replicate 1025 7))⟩,
   ⟨["u.bin".toList], .file (some ⟨1025, some 0, some 0⟩) none⟩]

/-- Concrete tree whose single file has a readable, stale access time but
no readable modified time. -/
def noModFS : FileSystem :=
  [⟨["m.bin".toList], .file (some ⟨10, some 0, none⟩) none⟩]

/-- Concrete tree with a cache directory, one duplicate pair, and a stale
file, used to witness the aggregation and cache properties. -/
def cacheFS : FileSystem :=
  [⟨["node_modules".toList], .dir⟩,
   ⟨["node_modules".toList, "x.pkg".toList], .file (some ⟨3000, some 0, some 0⟩) none⟩]

lemma of_mem_walk {keep : Str → Bool} {md : Option Nat} {root : Str} {fs : FileSystem}
    {pe : Str × FSEntry} (h : pe ∈ walk keep md root fs) :
    ∃ e ∈ fs, prefixesOk keep root e.comps = true ∧ withinDepth md e.comps.length = true ∧
      pe.1 = pathOf root e.comps ∧ pe.2 = e := by
  unfold walk at h
  rw [List.mem_map] at h
  obtain ⟨e, he, hpe⟩ := h
  rw [List.mem_filter, Bool.and_eq_true] at he
  exact ⟨e, he.1, he.2.1, he.2.2, by rw [← hpe], by rw [← hpe]⟩

lemma of_mem_find_large_files {fs : FileSystem} {root : Str} {msz : Nat} {f : FileInfo}
    (h : f ∈ find_large_files fs root msz) :
    ∃ e ∈ fs, ∃ m c, e.kind = EntryKind.file (some m) c ∧
      prefixesOk keepEntry root e.comps = true ∧
      msz * 1024 * 1024 % u64Mod ≤ m.size ∧
      m.accessed = some f.last_accessed ∧ m.modified = some f.last_modified ∧
      f.path = pathOf root e.comps ∧ f.size = m.size := by
  unfold find_large_files sortBySizeDesc at h
  rw [List.mem_insertionSort, List.mem_filterMap] at h
  obtain ⟨pe, hpe, hF⟩ := h
  obtain ⟨e, he, hok, _, hp1, hp2⟩ := of_mem_walk hpe
  rw [hp2] at hF
  match hk : e.kind with
  | .dir => rw [hk] at hF; exact absurd hF (by simp)
  | .file none c => rw [hk] at hF; exact absurd hF (by simp)
  | .file (some m) c =>
    rw [hk] at hF
    simp only at hF
    split at hF
    case isTrue hsize =>
      match hacc : m.accessed, hmo : m.modified with
      | some acc, some mo =>
        rw [hacc, hmo] at hF
        simp only [Option.some.injEq] at hF
        subst hF
        exact ⟨e, he, m, c, hk, hok, hsize, hacc, hmo, hp1, rfl⟩
      | some acc, none => rw [hacc, hmo] at hF; exact absurd hF (by simp)
      | none, _ => rw [hacc] at hF; exact absurd hF (by simp)
    case isFalse => exact absurd hF (by simp)

lemma pairwise_sortBySizeDesc (size : α → Nat) (l : List α) :
    List.Pairwise (fun a b => size b ≤ size a) (sortBySizeDesc size l) := by
  haveI : IsTotal α (fun a b => size b ≤ size a) := ⟨fun a b => le_total (size b) (size a)⟩
  haveI : IsTrans α (fun a b => size b ≤ size a) :=
    ⟨fun _ _ _ h1 h2 => le_trans h2 h1⟩
  exact List.sorted_insertionSort _ l

/-- C5: with the threshold product within `u64` range, every returned
file meets the byte threshold, and the result is non-increasing by size. -/
theorem find_large_files_threshold_sorted (fs : FileSystem) (root : Str) (min_size_mb : Nat)
    (hm : min_size_mb * 1024 * 1024 < 2 ^ 64) :
    (∀ f ∈ find_large_files fs root min_size_mb, min_size_mb * 1024 * 1024 ≤ f.size) ∧
      List.Pairwise (fun a b : FileInfo => b.size ≤ a.size)
        (find_large_files fs root min_size_mb) := by
  constructor
  · intro f hf
    obtain ⟨e, _, m, c, _, _, hsize, _, _, _, hfs⟩ := of_mem_find_large_files hf
    rw [hfs]
    rw [u64Mod, Nat.mod_eq_of_lt hm] at hsize
    exact hsize
  · exact pairwise_sortBySizeDesc FileInfo.size _

/-- Witness for C5 at a concrete tree and threshold. -/
theorem find_large_files_threshold_sorted_witness :
    (∀ f ∈ find_large_files gitFS rootR 1, 1 * 1024 * 1024 ≤ f.size) ∧
      List.Pairwise (fun a b : FileInfo => b.size ≤ a.size) (find_large_files gitFS rootR 1) :=
  find_large_files_threshold_sorted gitFS rootR 1 (by decide)

/-- C5 counterexample: with `min_size_mb = 2 ^ 44` the `u64` product
`min_size_mb * 1024 * 1024` wraps to 0, so a 10-byte file is returned
even though its size is far below the mathematical threshold. -/
theorem find_large_files_threshold_cex :
    ∃ f ∈ find_large_files smallFS rootR (2 ^ 44), f.size < 2 ^ 44 * 1024 * 1024 := by decide

/-- C1 (amended): every file returned by `find_large_files` stems from an
entry whose whole ancestor chain, the entry included, passes the
exclusion filter, so no file below an excluded directory is ever
returned. -/
theorem find_large_files_unpruned (fs : FileSystem) (root : Str) (min_size_mb : Nat) :
    ∀ f ∈ find_large_files fs root min_size_mb, ∃ e ∈ fs, ∃ m c,
      e.kind = EntryKind.file (some m) c ∧ f.path = pathOf root e.comps ∧
      prefixesOk keepEntry root e.comps = true := by
  intro f hf
  obtain ⟨e, he, m, c, hk, hok, _, _, _, hp, _⟩ := of_mem_find_large_files hf
  exact ⟨e, he, m, c, hk, hp, hok⟩

/-- Witness for the amended C1 at a concrete tree. -/
theorem find_large_files_unpruned_witness :
    ∃ e ∈ gitFS, ∃ m c, e.kind = EntryKind.file (some m) c ∧
      (FileInfo.mk "r/.git/big.bin".toList 52428800 0 0).path = pathOf rootR e.comps ∧
      prefixesOk keepEntry rootR e.comps = true :=
  find_large_files_unpruned gitFS rootR 1 ⟨"r/.git/big.bin".toList, 52428800, 0, 0⟩ (by decide)

/-- C1 counterexample: the exclusion table has no version-control entry,
so the `.git` subtree is not pruned and its 50MB file is returned by
`find_large_files` despite the claim. -/
theorem find_large_files_git_cex :
    (⟨[".git".toList], EntryKind.dir⟩ : FSEntry) ∈ gitFS ∧
      ∃ f ∈ find_large_files gitFS rootR 1,
        f.path = "r/.git/big.bin".toList ∧ 1 * 1024 * 1024 ≤ f.size := by decide

lemma of_mem_find_old_files {fs : FileSystem} {root : Str} {days now : Nat} {f : FileInfo}
    (h : f ∈ find_old_files fs root days now) :
    ∃ e ∈ fs, ∃ m c, e.kind = EntryKind.file (some m) c ∧
      prefixesOk keepEntry root e.comps = true ∧
      m.accessed = some f.last_accessed ∧ f.last_accessed ≤ now ∧
      days * 24 * 60 * 60 % u64Mod ≤ now - f.last_accessed ∧
      m.modified = some f.last_modified ∧ f.path = pathOf root e.comps ∧ f.size = m.size := by
  unfold find_old_files at h
  rw [List.mem_filterMap] at h
  obtain ⟨pe, hpe, hF⟩ := h
  obtain ⟨e, he, hok, _, hp1, hp2⟩ := of_mem_walk hpe
  rw [hp2] at hF
  match hk : e.kind with
  | .dir => rw [hk] at hF; exact absurd hF (by simp)
  | .file none c => rw [hk] at hF; exact absurd hF (by simp)
  | .file (some m) c =>
    rw [hk] at hF
    simp only at hF
    match hacc : m.accessed with
    | none => rw [hacc] at hF; exact absurd hF (by simp)
    | some acc =>
      rw [hacc] at hF
      simp only at hF
      split at hF
      case isFalse => exact absurd hF (by simp)
      case isTrue hle =>
        split at hF
        case isFalse => exact absurd hF (by simp)
        case isTrue hthr =>
          match hmo : m.modified with
          | none => rw [hmo] at hF; exact absurd hF (by simp)
          | some mo =>
            rw [hmo] at hF
            simp only [Option.some.injEq] at hF
            subst hF
            exact ⟨e, he, m, c, hk, hok, hacc, hle, hthr, hmo, hp1, rfl⟩

/-- C6 (amended): with `days * 86400` within `u64` range, every returned
file is at least that many seconds old relative to the single captured
`now`, its access time was readable and not in the future, and its
modified time was readable. -/
theorem find_old_files_threshold (fs : FileSystem) (root : Str) (days now : Nat)
    (hd : days * 86400 < 2 ^ 64) :
    ∀ f ∈ find_old_files fs root days now,
      f.last_accessed ≤ now ∧ days * 86400 ≤ now - f.last_accessed ∧
        ∃ e ∈ fs, ∃ m c, e.kind = EntryKind.file (some m) c ∧
          m.accessed = some f.last_accessed ∧ m.modified = some f.last_modified ∧
          f.path = pathOf root e.comps := by
  intro f hf
  obtain ⟨e, he, m, c, hk, _, hacc, hle, hthr, hmo, hp, _⟩ := of_mem_find_old_files hf
  have h86 : days * 24 * 60 * 60 = days * 86400 := by ring
  rw [h86, u64Mod, Nat.mod_eq_of_lt hd] at hthr
  exact ⟨hle, hthr, e, he, m, c, hk, hacc, hmo, hp⟩

/-- Witness for C6 at a concrete tree: the 10-byte file of `smallFS` was
accessed at time 5 and scanned at time 100005 with a 1-day threshold. -/
theorem find_old_files_threshold_witness :
    (5 : Nat) ≤ 100005 ∧ (1 : Nat) * 86400 ≤ 100005 - 5 ∧
      ∃ e ∈ smallFS, ∃ m c, e.kind = EntryKind.file (some m) c ∧
        m.accessed = some 5 ∧ m.modified = some 5 ∧
        "r/f.bin".toList = pathOf rootR e.comps :=
  find_old_files_threshold smallFS rootR 1 100005 (by decide)
    ⟨"r/f.bin".toList, 10, 5, 5⟩ (by decide)

/-- C6 counterexample: with `days = 2 ^ 57` the `u64` product
`days * 86400` wraps to 0, so a file accessed at the captured `now` is
returned even though it is not `days * 86400` seconds old. -/
theorem find_old_files_threshold_cex :
    ∃ f ∈ find_old_files smallFS rootR (2 ^ 57) 5, (5 : Nat) - f.last_accessed < 2 ^ 57 * 86400 := by
  decide

/-- C10: a file whose access time passes the staleness test but whose
modified timestamp is unreadable is excluded from the result of
`find_old_files`. -/
theorem find_old_files_requires_modified (fs : FileSystem) (root : Str) (days now : Nat)
    (e : FSEntry) (m : FileMeta) (c : Option (List Nat))
    (he : e ∈ fs) (hk : e.kind = EntryKind.file (some m) c) (hmod : m.modified = none)
    (hu : UniquePathAt fs root e) :
    pathOf root e.comps ∉ (find_old_files fs root days now).map FileInfo.path := by
  intro hmem
  rw [List.mem_map] at hmem
  obtain ⟨f, hf, heq⟩ := hmem
  obtain ⟨e2, he2, m2, c2, hk2, _, _, _, _, hmo2, hp2, _⟩ := of_mem_find_old_files hf
  have : e2 = e := hu e2 he2 (by rw [← hp2, heq])
  subst this
  rw [hk] at hk2
  obtain ⟨hm2, -⟩ := EntryKind.file.inj hk2
  have hm2e : m = m2 := Option.some.inj hm2
  rw [← hm2e, hmod] at hmo2
  exact Option.noConfusion hmo2

/-- Witness for C10 at a concrete tree whose single file has no readable
modified timestamp but an old access time. -/
theorem find_old_files_requires_modified_witness :
    pathOf rootR [["m.bin".toList].head!] ∉
      (find_old_files noModFS rootR 1 100000).map FileInfo.path :=
  find_old_files_requires_modified noModFS rootR 1 100000
    ⟨["m.bin".toList], EntryKind.file (some ⟨10, some 0, none⟩) none⟩ ⟨10, some 0, none⟩ none
    (by decide) rfl rfl (by decide)

lemma dupReclaim_headI (g : List FileInfo) :
    (if 1 < g.length then g.headI.size * (g.length - 1) else 0) =
      g.headI.size * (g.length - 1) := by
  match g with
  | [] => simp
  | [f] => simp
  | f :: f2 :: t => simp [List.length_cons]

/-- C3: the total reclaimable figure of `analyze_disk` is the sum over
duplicate groups of first-member size times (group size - 1), plus the
plain sums of the cache-directory sizes and the stale-file sizes, under
`u64` arithmetic, with no deduplication across the three categories. -/
theorem analyze_disk_total_eq (digest : List Nat → List Nat) (fs : FileSystem) (root : Str)
    (now : Nat) (config : AnalysisConfig) :
    (analyze_disk digest fs root now config).total_reclaimable =
      (((analyze_disk digest fs root now config).duplicate_groups.map
          (fun g => g.headI.size * (g.length - 1))).sum +
        ((analyze_disk digest fs root now config).cache_dirs.map CacheInfo.size).sum +
        ((analyze_disk digest fs root now config).old_files.map FileInfo.size).sum) % u64Mod := by
  unfold analyze_disk
  simp only
  rw [List.map_congr_left (fun g _ => dupReclaim_headI g)]

/-- C9: `analyze_disk` never reads `max_large_files`; two configurations
agreeing on the other two options produce identical analyses. -/
theorem analyze_disk_ignores_max_large_files (digest : List Nat → List Nat)
    (fs : FileSystem) (root : Str) (now : Nat) (m d x1 x2 : Nat) :
    analyze_disk digest fs root now ⟨m, d, x1⟩ = analyze_disk digest fs root now ⟨m, d, x2⟩ :=
  rfl

lemma occursSegBounded_of_contains {ex p : Str}
    (h : strContainsSub p ('/' :: ex ++ ['/']) = true) : occursSegBounded ex p = true := by
  unfold strContainsSub at h
  rw [List.any_eq_true] at h
  obtain ⟨t, ht, hpre⟩ := h
  rw [List.mem_tails] at ht
  obtain ⟨s, hs⟩ := ht
  rw [List.isPrefixOf_iff_prefix] at hpre
  obtain ⟨u, hu⟩ := hpre
  have hp : p = (s ++ ['/']) ++ (ex ++ '/' :: u) := by
    rw [← hs, ← hu]
    simp
  unfold occursSegBounded
  rw [List.any_eq_true]
  refine ⟨s.length + 1, List.mem_range.mpr ?_, ?_⟩
  · rw [hp]
    simp [List.length_append]
  · have hlen : s.length + 1 = (s ++ ['/']).length := by simp
    have hdrop : p.drop (s.length + 1) = ex ++ '/' :: u := by
      rw [hp, hlen, List.drop_left]
    have htake : p.take (s.length + 1) = s ++ ['/'] := by
      rw [hp, hlen, List.take_left]
    have hdrop2 : p.drop (s.length + 1 + ex.length) = '/' :: u := by
      have h2 : s.length + 1 + ex.length = ((s ++ ['/']) ++ ex).length := by
        simp
        omega
      have hp2 : p = ((s ++ ['/']) ++ ex) ++ ('/' :: u) := by
        rw [hp]
        simp
      rw [hp2, h2, List.drop_left]
    rw [Bool.and_eq_true, Bool.and_eq_true]
    refine ⟨⟨?_, ?_⟩, ?_⟩
    · rw [hdrop, List.isPrefixOf_iff_prefix]
      exact List.prefix_append ex ('/' :: u)
    · rw [Bool.or_eq_true, decide_eq_true_iff, decide_eq_true_iff]
      right
      rw [htake]
      exact List.getLast?_concat s
    · rw [Bool.or_eq_true, decide_eq_true_iff, decide_eq_true_iff]
      right
      rw [hdrop2]
      rfl

/-- C2 (amended): the path filter fires only when a marker is a plain
string prefix of the path or occurs surrounded by path separators; the
interior-substring case is therefore segment-bounded, but the prefix case
need not be. -/
theorem should_exclude_path_prefix_or_delimited (p : Str) (h : should_exclude_path p = true) :
    ∃ ex ∈ excluded_dirs, ex.isPrefixOf p = true ∨ occursSegBounded ex p = true := by
  unfold should_exclude_path at h
  rw [List.any_eq_true] at h
  obtain ⟨ex, hmem, hor⟩ := h
  rw [Bool.or_eq_true] at hor
  exact ⟨ex, hmem, hor.imp id occursSegBounded_of_contains⟩

/-- Witness for the amended C2 at a concrete excluded path. -/
theorem should_exclude_path_prefix_or_delimited_witness :
    ∃ ex ∈ excluded_dirs, ex.isPrefixOf "a/Windows/b".toList = true ∨
      occursSegBounded ex "a/Windows/b".toList = true :=
  should_exclude_path_prefix_or_delimited "a/Windows/b".toList (by decide)

/-- C2 counterexample: `/system/data` is excluded through the `starts_with`
branch of the `/sys` marker although no marker occurs segment-bounded in
it, and in particular `sys` is not a component of the path. -/
theorem should_exclude_path_substring_cex :
    should_exclude_path "/system/data".toList = true ∧
      ¬ ∃ ex ∈ excluded_dirs, occursSegBounded ex "/system/data".toList = true := by decide

lemma mem_groupByKey {κ : Type} [DecidableEq κ] (key : α → κ) {l : List α} {k : κ}
    {g : List α} (h : (k, g) ∈ groupByKey key l) :
    g = l.filter (fun x => decide (key x = k)) := by
  unfold groupByKey at h
  rw [List.mem_map] at h
  obtain ⟨k2, _, heq⟩ := h
  rw [Prod.mk.injEq] at heq
  obtain ⟨hk, hg⟩ := heq
  rw [← hg, hk]

lemma of_mem_collect {fs : FileSystem} {root : Str} {sf : SizedFile}
    (h : sf ∈ collect_dup_candidates fs root) :
    ∃ e ∈ fs, ∃ m, e.kind = EntryKind.file (some m) sf.content ∧
      prefixesOk keepEntry root e.comps = true ∧ 1024 < m.size ∧
      m.accessed = some sf.info.last_accessed ∧ m.modified = some sf.info.last_modified ∧
      sf.info.path = pathOf root e.comps ∧ sf.info.size = m.size := by
  unfold collect_dup_candidates at h
  rw [List.mem_filterMap] at h
  obtain ⟨pe, hpe, hF⟩ := h
  obtain ⟨e, he, hok, _, hp1, hp2⟩ := of_mem_walk hpe
  rw [hp2] at hF
  match hk : e.kind with
  | .dir => rw [hk] at hF; exact absurd hF (by simp)
  | .file none c => rw [hk] at hF; exact absurd hF (by simp)
  | .file (some m) c =>
    rw [hk] at hF
    simp only at hF
    split at hF
    case isTrue hsize =>
      match hacc : m.accessed, hmo : m.modified with
      | some acc, some mo =>
        rw [hacc, hmo] at hF
        simp only [Option.some.injEq] at hF
        subst hF
        exact ⟨e, he, m, hk, hok, hsize, hacc, hmo, hp1, rfl⟩
      | some acc, none => rw [hacc, hmo] at hF; exact absurd hF (by simp)
      | none, _ => rw [hacc] at hF; exact absurd hF (by simp)
    case isFalse => exact absurd hF (by simp)

lemma of_mem_to_hash {fs : FileSystem} {root : Str} {sf : SizedFile}
    (h : sf ∈ dup_to_hash fs root) : sf ∈ collect_dup_candidates fs root := by
  unfold dup_to_hash at h
  rw [List.mem_flatMap] at h
  obtain ⟨sg, hsg, hmem⟩ := h
  rw [List.mem_filter] at hsg
  have hgl : sg.2 = (collect_dup_candidates fs root).filter
      (fun x => decide (x.info.size = sg.1)) := mem_groupByKey (fun sf => sf.info.size) hsg.1
  rw [hgl, List.mem_filter] at hmem
  exact hmem.1

lemma of_mem_dup_hashed {digest : List Nat → List Nat} {fs : FileSystem} {root : Str}
    {hp : List Nat × FileInfo} (h : hp ∈ dup_hashed digest fs root) :
    ∃ sf ∈ dup_to_hash fs root, ∃ cc, sf.content = some cc ∧ hp = (digest cc, sf.info) := by
  unfold dup_hashed at h
  rw [List.mem_filterMap] at h
  obtain ⟨sf, hsf, hF⟩ := h
  match hc : sf.content with
  | none => rw [hash_file, hc] at hF; exact absurd hF (by simp)
  | some cc =>
    rw [hash_file, hc] at hF
    simp only [Option.map_some', Option.some.injEq] at hF
    exact ⟨sf, hsf, cc, hc, hF.symm⟩

lemma of_mem_find_duplicates {digest : List Nat → List Nat} {fs : FileSystem} {root : Str}
    {g : List FileInfo} (h : g ∈ find_duplicates digest fs root) :
    ∃ k, 1 < ((dup_hashed digest fs root).filter (fun hp => decide (hp.1 = k))).length ∧
      g = ((dup_hashed digest fs root).filter (fun hp => decide (hp.1 = k))).map (·.2) := by
  unfold find_duplicates at h
  rw [List.mem_map] at h
  obtain ⟨g2, hg2, hmapeq⟩ := h
  rw [List.mem_filter, decide_eq_true_iff] at hg2
  have hgl : g2.2 = (dup_hashed digest fs root).filter (fun hp => decide (hp.1 = g2.1)) :=
    mem_groupByKey (fun hp : List Nat × FileInfo => hp.1) hg2.1
  exact ⟨g2.1, by rw [← hgl]; exact hg2.2, by rw [← hgl, hmapeq]⟩

lemma collect_size_eq_content_length {fs : FileSystem} {root : Str} {sf : SizedFile}
    {cc : List Nat} (hwf : WFSizes fs = true) (hsf : sf ∈ collect_dup_candidates fs root)
    (hc : sf.content = some cc) : sf.info.size = cc.length := by
  obtain ⟨e, he, m, hk, _, _, _, _, _, hsz⟩ := of_mem_collect hsf
  have hall := List.all_eq_true.mp hwf e he
  rw [hc] at hk
  unfold entrySizeOk at hall
  rw [hk] at hall
  rw [decide_eq_true_iff] at hall
  rw [hsz, hall]

/-- C4: under the specification's collision-freeness assumption on the
digest and size-consistency of the tree, every group returned by
`find_duplicates` has at least two members, every member is strictly
larger than 1024 bytes, all members share one size, and all members share
one content digest. -/
theorem find_duplicates_groups_spec (digest : List Nat → List Nat) (fs : FileSystem)
    (root : Str) (hinj : Function.Injective digest) (hwf : WFSizes fs = true) :
    ∀ g ∈ find_duplicates digest fs root,
      2 ≤ g.length ∧ (∀ f ∈ g, 1024 < f.size) ∧
        (∀ f1 ∈ g, ∀ f2 ∈ g, f1.size = f2.size) ∧
        ∃ hsh, ∀ f ∈ g, ∃ sf ∈ collect_dup_candidates fs root, ∃ cc,
          sf.info = f ∧ sf.content = some cc ∧ digest cc = hsh := by
  intro g hg
  obtain ⟨k, hlen, hmap⟩ := of_mem_find_duplicates hg
  have hmem : ∀ f ∈ g, ∃ sf ∈ collect_dup_candidates fs root, ∃ cc,
      sf.info = f ∧ sf.content = some cc ∧ digest cc = k := by
    intro f hf
    rw [hmap, List.mem_map] at hf
    obtain ⟨hp, hhp, hf2⟩ := hf
    rw [List.mem_filter, decide_eq_true_iff] at hhp
    obtain ⟨hhashed, hkey⟩ := hhp
    obtain ⟨sf, hsf, cc, hcc, hpe⟩ := of_mem_dup_hashed hhashed
    refine ⟨sf, of_mem_to_hash hsf, cc, ?_, hcc, ?_⟩
    · rw [← hf2, hpe]
    · rw [← hkey, hpe]
  refine ⟨?_, ?_, ?_, k, hmem⟩
  · rw [hmap, List.length_map]
    omega
  · intro f hf
    obtain ⟨sf, hsfc, _, hinfo, -, -⟩ := hmem f hf
    obtain ⟨e, _, m, _, _, h1024, _, _, _, hsz⟩ := of_mem_collect hsfc
    rw [← hinfo, hsz]
    exact h1024
  · intro f1 h1 f2 h2
    obtain ⟨sf1, hc1, cc1, hi1, hcc1, hd1⟩ := hmem f1 h1
    obtain ⟨sf2, hc2, cc2, hi2, hcc2, hd2⟩ := hmem f2 h2
    have hcceq : cc1 = cc2 := hinj (hd1.trans hd2.symm)
    have e1 := collect_size_eq_content_length hwf hc1 hcc1
    have e2 := collect_size_eq_content_length hwf hc2 hcc2
    rw [← hi1, ← hi2, e1, e2, hcceq]

set_option maxRecDepth 40000 in
/-- Witness for C4 at a concrete tree with one duplicate pair. -/
theorem find_duplicates_groups_spec_witness :
    2 ≤ ([⟨"r/a.txt".toList, 1025, 0, 0⟩, ⟨"r/b.bin".toList, 1025, 0, 0⟩] : List FileInfo).length ∧
      (∀ f ∈ ([⟨"r/a.txt".toList, 1025, 0, 0⟩, ⟨"r/b.bin".toList, 1025, 0, 0⟩] : List FileInfo),
        1024 < f.size) ∧
      (∀ f1 ∈ ([⟨"r/a.txt".toList, 1025, 0, 0⟩, ⟨"r/b.bin".toList, 1025, 0, 0⟩] : List FileInfo),
        ∀ f2 ∈ ([⟨"r/a.txt".toList, 1025, 0, 0⟩, ⟨"r/b.bin".toList, 1025, 0, 0⟩] : List FileInfo),
          f1.size = f2.size) ∧
      ∃ hsh, ∀ f ∈ ([⟨"r/a.txt".toList, 1025, 0, 0⟩, ⟨"r/b.bin".toList, 1025, 0, 0⟩] : List FileInfo),
        ∃ sf ∈ collect_dup_candidates dupFS rootR, ∃ cc,
          sf.info = f ∧ sf.content = some cc ∧ id cc = hsh :=
  find_duplicates_groups_spec id dupFS rootR Function.injective_id (by decide) _ (by decide)

lemma countP_filterMap_le_one {α β : Type} (F : α → Option β) (p : β → Bool) (x0 : α)
    (l : List α) :
    l.Nodup → (∀ x ∈ l, ∀ y, F x = some y → p y = true → x = x0) →
      (l.filterMap F).countP p ≤ 1 := by
  induction l with
  | nil => intro _ _; simp
  | cons x l ih =>
    intro hnd huniq
    rw [List.nodup_cons] at hnd
    have ih2 := ih hnd.2 (fun a ha => huniq a (List.mem_cons_of_mem x ha))
    rw [List.filterMap_cons]
    match hF : F x with
    | none => exact ih2
    | some y =>
      rw [List.countP_cons]
      by_cases hp : p y = true
      · have hx : x = x0 := huniq x (List.mem_cons_self x l) y hF hp
        have hzero : (l.filterMap F).countP p = 0 := by
          rw [List.countP_eq_zero]
          intro z hz hpz
          rw [List.mem_filterMap] at hz
          obtain ⟨c, hcmem, hFc⟩ := hz
          have hc0 : c = x0 := huniq c (List.mem_cons_of_mem x hcmem) z hFc hpz
          have hxl : x ∈ l := by
            rw [hx, ← hc0]
            exact hcmem
          exact hnd.1 hxl
        rw [hzero, hp]
        simp
      · have hp2 : p y = false := by
          revert hp
          cases p y <;> simp
        rw [hp2]
        simpa using ih2

lemma dup_size_groups_disjoint {fs : FileSystem} {root : Str} :
    List.Pairwise (Function.onFun List.Disjoint (fun sg : Nat × List SizedFile => sg.2))
      (dup_size_groups fs root) := by
  unfold dup_size_groups groupByKey
  rw [List.pairwise_map]
  have hnd := List.nodup_dedup ((collect_dup_candidates fs root).map (fun sf => sf.info.size))
  refine hnd.imp ?_
  intro k1 k2 hne x hx1 hx2
  rw [List.mem_filter, decide_eq_true_iff] at hx1 hx2
  exact hne (hx1.2.symm.trans hx2.2)

lemma dup_to_hash_nodup {fs : FileSystem} {root : Str}
    (hnd : (collect_dup_candidates fs root).Nodup) : (dup_to_hash fs root).Nodup := by
  unfold dup_to_hash
  rw [List.nodup_flatMap]
  constructor
  · intro sg hsg
    rw [List.mem_filter] at hsg
    have hgl := mem_groupByKey (fun sf : SizedFile => sf.info.size) hsg.1
    rw [hgl]
    exact hnd.filter _
  · exact (dup_size_groups_disjoint).filter _

lemma dup_bucket_pair_excluded (digest : List Nat → List Nat) (fs : FileSystem)
    (root : Str) (s : Nat) (u r : SizedFile)
    (hinj : Function.Injective digest) (hwf : WFSizes fs = true)
    (hnd : (collect_dup_candidates fs root).Nodup)
    (humem : u ∈ collect_dup_candidates fs root ∧ u.info.size = s)
    (hrmem : r ∈ collect_dup_candidates fs root ∧ r.info.size = s)
    (hin2 : ∀ sf, sf ∈ dup_to_hash fs root → sf.info.size = s → sf = u ∨ sf = r)
    (hcu : u.content = none) (hur : u.info.path ≠ r.info.path) :
    u.info ∉ (find_duplicates digest fs root).flatMap (fun g => g) ∧
      r.info ∉ (find_duplicates digest fs root).flatMap (fun g => g) := by
  constructor
  · intro hain0
    rw [List.mem_flatMap] at hain0
    obtain ⟨g, hg, hain⟩ := hain0
    obtain ⟨k, hlen, hmap⟩ := of_mem_find_duplicates hg
    rw [hmap, List.mem_map] at hain
    obtain ⟨hp, hhp, hpa⟩ := hain
    obtain ⟨sf, hsf, cc, hcc, hpe⟩ := of_mem_dup_hashed (List.mem_filter.mp hhp).1
    have hsfinfo : sf.info = u.info := by
      rw [hpe] at hpa
      exact hpa
    have hsz : sf.info.size = s := by
      rw [hsfinfo, humem.2]
    rcases hin2 sf hsf hsz with h | h
    · rw [h, hcu] at hcc
      exact Option.noConfusion hcc
    · rw [h] at hsfinfo
      exact hur (congrArg FileInfo.path hsfinfo.symm)
  · intro hbin0
    rw [List.mem_flatMap] at hbin0
    obtain ⟨g, hg, hbin⟩ := hbin0
    obtain ⟨k, hlen, hmap⟩ := of_mem_find_duplicates hg
    rw [hmap, List.mem_map] at hbin
    obtain ⟨hp0, hhp0, hpb⟩ := hbin
    obtain ⟨hhashed0, hkey0⟩ := List.mem_filter.mp hhp0
    rw [decide_eq_true_iff] at hkey0
    obtain ⟨sf0, hsf0, cc0, hcc0, hpe0⟩ := of_mem_dup_hashed hhashed0
    have hsfinfo0 : sf0.info = r.info := by
      rw [hpe0] at hpb
      exact hpb
    have hsz0 : sf0.info.size = s := by
      rw [hsfinfo0, hrmem.2]
    have hsf0r : sf0 = r := by
      rcases hin2 sf0 hsf0 hsz0 with h | h
      · rw [h, hcu] at hcc0
        exact absurd hcc0 (by simp)
      · exact h
    have hrcc : r.content = some cc0 := by
      rw [← hsf0r]
      exact hcc0
    have hkd : k = digest cc0 := by
      rw [hpe0] at hkey0
      exact hkey0.symm
    have hrsz : r.info.size = cc0.length :=
      collect_size_eq_content_length hwf hrmem.1 hrcc
    have huniq : ∀ x ∈ dup_to_hash fs root, ∀ y : List Nat × FileInfo,
        ((hash_file digest x.content).map (fun h => (h, x.info))) = some y →
        (decide (y.1 = k)) = true → x = r := by
      intro x hx y hFy hpy
      rw [decide_eq_true_iff] at hpy
      match hxc : x.content with
      | none =>
        rw [hash_file, hxc] at hFy
        exact absurd hFy (by simp)
      | some cx =>
        rw [hash_file, hxc] at hFy
        simp only [Option.map_some', Option.some.injEq] at hFy
        have hy1 : y.1 = digest cx := by
          rw [← hFy]
        have hdig : digest cx = digest cc0 := by
          rw [← hy1, hpy, hkd]
        have hcx : cx = cc0 := hinj hdig
        have hxsz : x.info.size = cx.length :=
          collect_size_eq_content_length hwf (of_mem_to_hash hx) hxc
        have hxs : x.info.size = s := by
          rw [hxsz, hcx, ← hrsz, hrmem.2]
        rcases hin2 x hx hxs with h | h
        · rw [h, hcu] at hxc
          exact absurd hxc (by simp)
        · exact h
    have hle := countP_filterMap_le_one
      (fun sf => (hash_file digest sf.content).map (fun h => (h, sf.info)))
      (fun hp => decide (hp.1 = k)) r (dup_to_hash fs root) (dup_to_hash_nodup hnd) huniq
    have heq : dup_hashed digest fs root = (dup_to_hash fs root).filterMap
        (fun sf => (hash_file digest sf.content).map (fun h => (h, sf.info))) := rfl
    rw [← List.countP_eq_length_filter, heq] at hlen
    omega

/-- C8: in a size bucket holding exactly two files of which one (either
one) is unreadable during hashing, neither file ever appears in a
returned duplicate group: the unreadable file is dropped and the
remaining readable file cannot form a group on its own. -/
theorem find_duplicates_drops_unreadable (digest : List Nat → List Nat) (fs : FileSystem)
    (root : Str) (s : Nat) (a b : SizedFile)
    (hinj : Function.Injective digest) (hwf : WFSizes fs = true)
    (hnd : (collect_dup_candidates fs root).Nodup)
    (hbucket : (collect_dup_candidates fs root).filter
      (fun sf => decide (sf.info.size = s)) = [a, b])
    (hca : a.content = none ∨ b.content = none) (hab : a.info.path ≠ b.info.path) :
    a.info ∉ (find_duplicates digest fs root).flatMap (fun g => g) ∧
      b.info ∉ (find_duplicates digest fs root).flatMap (fun g => g) := by
  have hamem : a ∈ collect_dup_candidates fs root ∧ a.info.size = s := by
    have hm : a ∈ (collect_dup_candidates fs root).filter
        (fun sf => decide (sf.info.size = s)) := by
      rw [hbucket]
      exact List.mem_cons_self a [b]
    rw [List.mem_filter, decide_eq_true_iff] at hm
    exact hm
  have hbmem : b ∈ collect_dup_candidates fs root ∧ b.info.size = s := by
    have hm : b ∈ (collect_dup_candidates fs root).filter
        (fun sf => decide (sf.info.size = s)) := by
      rw [hbucket]
      exact List.mem_cons_of_mem a (List.mem_cons_self b [])
    rw [List.mem_filter, decide_eq_true_iff] at hm
    exact hm
  have hin2 : ∀ sf, sf ∈ dup_to_hash fs root → sf.info.size = s → sf = a ∨ sf = b := by
    intro sf hsf hsz
    have hc : sf ∈ (collect_dup_candidates fs root).filter
        (fun sf => decide (sf.info.size = s)) :=
      List.mem_filter.mpr ⟨of_mem_to_hash hsf, decide_eq_true hsz⟩
    rw [hbucket] at hc
    rcases List.mem_cons.mp hc with h | h
    · exact Or.inl h
    · exact Or.inr (List.mem_singleton.mp h)
  rcases hca with hcu | hcu
  · exact dup_bucket_pair_excluded digest fs root s a b hinj hwf hnd hamem hbmem hin2 hcu hab
  · have h2 := dup_bucket_pair_excluded digest fs root s b a hinj hwf hnd hbmem hamem
      (fun sf h1 h2 => (hin2 sf h1 h2).symm) hcu (fun e => hab e.symm)
    exact ⟨h2.2, h2.1⟩

set_option maxRecDepth 40000 in
/-- Witness for C8 at a concrete tree whose size bucket holds the
readable file first and the unreadable file second, exercising the
symmetric case of the hypothesis. -/
theorem find_duplicates_drops_unreadable_witness :
    (⟨"r/v.bin".toList, 1025, 0, 0⟩ : FileInfo) ∉
        (find_duplicates id unreadableFS rootR).flatMap (fun g => g) ∧
      (⟨"r/u.bin".toList, 1025, 0, 0⟩ : FileInfo) ∉
        (find_duplicates id unreadableFS rootR).flatMap (fun g => g) :=
  find_duplicates_drops_unreadable id unreadableFS rootR 1025
    ⟨⟨"r/v.bin".toList, 1025, 0, 0⟩, some (List.replicate 1025 7)⟩
    ⟨⟨"r/u.bin".toList, 1025, 0, 0⟩, none⟩
    Function.injective_id (by decide) (by decide) (by decide) (Or.inr rfl) (by decide)

/-- Invariant of the `find_cache_directories` accumulator: every recorded
directory has positive recursive size computed from an actual directory
entry, recorded paths are distinct, and every recorded path is in the
seen set. -/
def cacheInv (fs : FileSystem) (root : Str) (acc : List CacheInfo × List Str) : Prop :=
  (∀ c ∈ acc.1, 0 < c.size ∧ ∃ e ∈ fs, e.kind = EntryKind.dir ∧
      c.path = pathOf root e.comps ∧ c.size = calculate_dir_size fs e.comps) ∧
    (acc.1.map CacheInfo.path).Nodup ∧ (∀ c ∈ acc.1, c.path ∈ acc.2)

lemma cacheInv_foldl_pats (fs : FileSystem) (root : Str) (pe : Str × FSEntry)
    (e : FSEntry) (he : e ∈ fs) (hdir : e.kind = EntryKind.dir)
    (hp1 : pe.1 = pathOf root e.comps) (hp2 : pe.2 = e) :
    ∀ (pats : List (Str × Str)) (acc : List CacheInfo × List Str), cacheInv fs root acc →
      cacheInv fs root (pats.foldl (fun acc pl =>
        if pl.1.isSuffixOf pe.1 && !acc.2.contains pe.1 then
          let size := calculate_dir_size fs pe.2.comps
          if 0 < size then (acc.1 ++ [⟨pe.1, pl.2, size⟩], acc.2 ++ [pe.1]) else acc
        else acc) acc) := by
  intro pats
  induction pats with
  | nil => intro acc h; exact h
  | cons pl pats ih =>
    intro acc hInv
    rw [List.foldl_cons]
    apply ih
    by_cases hcond : (pl.1.isSuffixOf pe.1 && !acc.2.contains pe.1) = true
    · rw [if_pos hcond]
      show cacheInv fs root (if 0 < calculate_dir_size fs pe.2.comps then
        (acc.1 ++ [⟨pe.1, pl.2, calculate_dir_size fs pe.2.comps⟩], acc.2 ++ [pe.1]) else acc)
      by_cases hsz : 0 < calculate_dir_size fs pe.2.comps
      · rw [if_pos hsz]
        obtain ⟨hrec, hnodup, hseen⟩ := hInv
        refine ⟨?_, ?_, ?_⟩
        · intro c hc
          rw [List.mem_append] at hc
          rcases hc with hc | hc
          · exact hrec c hc
          · rw [List.mem_singleton] at hc
            subst hc
            refine ⟨hsz, e, he, hdir, hp1, ?_⟩
            rw [hp2]
        · rw [List.map_append, List.nodup_append]
          refine ⟨hnodup, List.nodup_singleton _, ?_⟩
          intro x hx hx2
          rw [List.mem_map] at hx
          obtain ⟨c, hc, hcp⟩ := hx
          simp only [List.map_cons, List.map_nil, List.mem_singleton] at hx2
          have hpec : pe.1 ∈ acc.2 := by
            rw [← hx2, ← hcp]
            exact hseen c hc
          have hcont : acc.2.contains pe.1 = true := List.elem_iff.mpr hpec
          rw [Bool.and_eq_true] at hcond
          have hnc := hcond.2
          rw [hcont] at hnc
          simp at hnc
        · intro c hc
          rw [List.mem_append] at hc
          rcases hc with hc | hc
          · exact List.mem_append_left _ (hseen c hc)
          · rw [List.mem_singleton] at hc
            subst hc
            exact List.mem_append_right _ (List.mem_singleton.mpr rfl)
      · rw [if_neg hsz]
        exact hInv
    · rw [if_neg hcond]
      exact hInv

lemma cacheInv_step {fs : FileSystem} {root : Str} {acc : List CacheInfo × List Str}
    {pe : Str × FSEntry} (hpe : pe ∈ walk keepEntry (some 6) root fs)
    (hInv : cacheInv fs root acc) : cacheInv fs root (cacheStep fs acc pe) := by
  obtain ⟨e, he, -, -, hp1, hp2⟩ := of_mem_walk hpe
  unfold cacheStep
  cases hk : pe.2.kind with
  | file m c => exact hInv
  | dir =>
    exact cacheInv_foldl_pats fs root pe e he (by rw [← hp2]; exact hk) hp1 hp2
      cache_patterns acc hInv

lemma cacheInv_foldl_walk (fs : FileSystem) (root : Str) :
    ∀ (l : List (Str × FSEntry)), (∀ pe ∈ l, pe ∈ walk keepEntry (some 6) root fs) →
      ∀ acc, cacheInv fs root acc → cacheInv fs root (l.foldl (cacheStep fs) acc) := by
  intro l
  induction l with
  | nil => intro _ acc h; exact h
  | cons pe l ih =>
    intro hmem acc hInv
    rw [List.foldl_cons]
    exact ih (fun x hx => hmem x (List.mem_cons_of_mem pe hx)) _
      (cacheInv_step (hmem pe (List.mem_cons_self pe l)) hInv)

/-- C7: every record of `find_cache_directories` has a strictly positive
recursive file-size sum taken at an actual directory entry, no two
records share a path, and the result is non-increasing by size. -/
theorem find_cache_directories_spec (fs : FileSystem) (root : Str) :
    (∀ c ∈ find_cache_directories fs root, 0 < c.size ∧ ∃ e ∈ fs,
        e.kind = EntryKind.dir ∧ c.path = pathOf root e.comps ∧
        c.size = calculate_dir_size fs e.comps) ∧
      ((find_cache_directories fs root).map CacheInfo.path).Nodup ∧
      List.Pairwise (fun a b : CacheInfo => b.size ≤ a.size)
        (find_cache_directories fs root) := by
  have hInv : cacheInv fs root
      ((walk keepEntry (some 6) root fs).foldl (cacheStep fs) ([], [])) :=
    cacheInv_foldl_walk fs root _ (fun pe hpe => hpe) ([], [])
      ⟨by simp, by simp, by simp⟩
  obtain ⟨hrec, hnodup, -⟩ := hInv
  refine ⟨?_, ?_, ?_⟩
  · intro c hc
    unfold find_cache_directories sortBySizeDesc at hc
    rw [List.mem_insertionSort] at hc
    exact hrec c hc
  · unfold find_cache_directories sortBySizeDesc
    have hperm := List.perm_insertionSort (fun a b : CacheInfo => b.size ≤ a.size)
      ((walk keepEntry (some 6) root fs).foldl (cacheStep fs) ([], [])).1
    exact ((hperm.map CacheInfo.path).nodup_iff).mpr hnodup
  · unfold find_cache_directories
    exact pairwise_sortBySizeDesc CacheInfo.size _

/-- Witness for C7 at a concrete tree with one cache directory. -/
theorem find_cache_directories_spec_witness :
    (∀ c ∈ find_cache_directories cacheFS rootR, 0 < c.size ∧ ∃ e ∈ cacheFS,
        e.kind = EntryKind.dir ∧ c.path = pathOf rootR e.comps ∧
        c.size = calculate_dir_size cacheFS e.comps) ∧
      ((find_cache_directories cacheFS rootR).map CacheInfo.path).Nodup ∧
      List.Pairwise (fun a b : CacheInfo => b.size ≤ a.size)
        (find_cache_directories cacheFS rootR) :=
  find_cache_directories_spec cacheFS rootR
